import Mathlib

/-!
Shallow embedding of the `interpolator` library (src/lib.rs) over the reals.

The source is a single Rust file defining a `ClosedInterval` type, four leaf
interpolators (`Step`, `NearestNeighbor`, `Linear`, `Sigmoid`) and a
`PiecewiseInterpolator` composite, all implementing the `Interpolator` trait
with operations `eval`, `exceeds_domain` and `get_domain`.  The `f32`
arithmetic of the source is idealised as real arithmetic; `panic!` in
constructors is modelled by `Except`, and `panic!`/`unwrap` during evaluation
by `Option`.  Field `bound.0` of the Rust pair corresponds to `.bound.1` here
and `bound.1` to `.bound.2`.
-/

namespace Interpolation

noncomputable section

open scoped Classical

/-- Mirror of the Rust struct `ClosedInterval { bound: (f32, f32), length: f32 }`. -/
structure ClosedInterval where
  bound : ℝ × ℝ
  length : ℝ

/-- Mirror of `ClosedInterval::new`: stores the bound pair and the derived
length `bound.1 - bound.0`. -/
def ClosedInterval.new (bound : ℝ × ℝ) : ClosedInterval :=
  { bound := bound, length := bound.2 - bound.1 }

/-- Success condition of `ClosedInterval::check_bound`, which panics iff
`bound.0 >= bound.1`. -/
def ClosedInterval.checkBoundOk (i : ClosedInterval) : Prop :=
  i.bound.1 < i.bound.2

/-- Mirror of `ClosedInterval::contains`: `x >= bound.0 && x <= bound.1`. -/
def ClosedInterval.contains (i : ClosedInterval) (x : ℝ) : Prop :=
  x ≥ i.bound.1 ∧ x ≤ i.bound.2

/-- The three construction-time failure conditions of the library:
`panic!("Invalid interval...")`, `panic!("Need at least one interpolator.")`,
`panic!("Combined domains are not closed.")`. -/
inductive InterpError where
  | invalidInterval
  | noInterpolators
  | discontinuousDomain
deriving DecidableEq

/-- Closed tagged-variant view of the trait objects of the source: the five
`Interpolator` implementations with exactly the fields their Rust structs
carry (precomputed `midpoint` for `NearestNeighbor`, `slope` for `Linear`,
list of children for `Piecewise`). -/
inductive Interp where
  | step (domain range : ClosedInterval)
  | nearestNeighbor (domain range : ClosedInterval) (midpoint : ℝ)
  | linear (domain range : ClosedInterval) (slope : ℝ)
  | sigmoid (domain range : ClosedInterval)
  | piecewise (domain : ClosedInterval) (interpolators : List Interp)

/-- Mirror of `get_domain`, identical for every variant: a copy of the stored
domain interval. -/
def Interp.getDomain : Interp → ClosedInterval
  | .step d _ => d
  | .nearestNeighbor d _ _ => d
  | .linear d _ _ => d
  | .sigmoid d _ => d
  | .piecewise d _ => d

/-- Mirror of `exceeds_domain`, implemented identically by every variant as
`x >= self.domain.bound.1`. -/
def Interp.exceedsDomain : Interp → ℝ → Prop
  | .step d _, x => x ≥ d.bound.2
  | .nearestNeighbor d _ _, x => x ≥ d.bound.2
  | .linear d _ _, x => x ≥ d.bound.2
  | .sigmoid d _, x => x ≥ d.bound.2
  | .piecewise d _, x => x ≥ d.bound.2

/-- Mirror of `StepInterpolator::new`: checks the domain bound, leaves the
range unchecked. -/
def StepInterpolator.new (domain range : ℝ × ℝ) : Except InterpError Interp :=
  let domainInterval := ClosedInterval.new domain
  if domainInterval.checkBoundOk then
    Except.ok (Interp.step domainInterval (ClosedInterval.new range))
  else
    Except.error InterpError.invalidInterval

/-- Mirror of `NearestNeighborInterpolator::new`: checks the domain bound and
precomputes `midpoint = (bound.1 - bound.0) / 2 + bound.0`. -/
def NearestNeighborInterpolator.new (domain range : ℝ × ℝ) :
    Except InterpError Interp :=
  let domainInterval := ClosedInterval.new domain
  if domainInterval.checkBoundOk then
    Except.ok (Interp.nearestNeighbor domainInterval (ClosedInterval.new range)
      ((domainInterval.bound.2 - domainInterval.bound.1) / 2
        + domainInterval.bound.1))
  else
    Except.error InterpError.invalidInterval

/-- Mirror of `LinearInterpolator::new`.  Note: unlike the other three leaf
constructors, the source never calls `check_bound` here, so no domain
validation happens and construction always succeeds. -/
def LinearInterpolator.new (domain range : ℝ × ℝ) : Except InterpError Interp :=
  let domainInterval := ClosedInterval.new domain
  let rangeInterval := ClosedInterval.new range
  Except.ok (Interp.linear domainInterval rangeInterval
    (rangeInterval.length / domainInterval.length))

/-- Mirror of `SigmoidInterpolator::new`: checks the domain bound. -/
def SigmoidInterpolator.new (domain range : ℝ × ℝ) : Except InterpError Interp :=
  let domainInterval := ClosedInterval.new domain
  if domainInterval.checkBoundOk then
    Except.ok (Interp.sigmoid domainInterval (ClosedInterval.new range))
  else
    Except.error InterpError.invalidInterval

/-- Mirror of the inner `fn sigmoid(x) = 1.0 / (1.0 + E.powf(-x))` of
`SigmoidInterpolator::eval`, with `E.powf` idealised as the real
exponential. -/
def sigmoidFn (x : ℝ) : ℝ :=
  1 / (1 + Real.exp (-x))

/-- Mirror of the contiguity loop of `PiecewiseInterpolator::new`: the
accumulator is the `expected_left_bound` option; a `Some a` that differs from
the next child's `bound.0` is the panic case. -/
def checkContiguous : Option ℝ → List Interp → Prop
  | _, [] => True
  | none, i :: rest => checkContiguous (some (Interp.getDomain i).bound.2) rest
  | some a, i :: rest =>
      a = (Interp.getDomain i).bound.1 ∧
        checkContiguous (some (Interp.getDomain i).bound.2) rest

/-- Mirror of `PiecewiseInterpolator::new`: rejects the empty sequence, then
the contiguity loop, then builds the composite domain
`(first.domain.bound.0, last.domain.bound.1)` (without `check_bound`). -/
def PiecewiseInterpolator.new (interpolators : List Interp) :
    Except InterpError Interp :=
  match interpolators with
  | [] => Except.error InterpError.noInterpolators
  | first :: rest =>
      if checkContiguous none (first :: rest) then
        Except.ok (Interp.piecewise
          (ClosedInterval.new
            ((Interp.getDomain first).bound.1,
             (Interp.getDomain ((first :: rest).getLast
               (List.cons_ne_nil first rest))).bound.2))
          (first :: rest))
      else
        Except.error InterpError.discontinuousDomain

mutual

/-- Mirror of `eval` for every variant.  A `none` result models a `panic!` or
a failing `unwrap` during evaluation (only reachable through
`PiecewiseInterpolator::eval`); every leaf `eval` is total. -/
def Interp.eval : Interp → ℝ → Option ℝ
  | .step domain range, x =>
      if x ≤ domain.bound.1 then some range.bound.1 else some range.bound.2
  | .nearestNeighbor _ range midpoint, x =>
      if x ≤ midpoint then some range.bound.1 else some range.bound.2
  | .linear domain range slope, x =>
      if x ≤ domain.bound.1 then some range.bound.1
      else if x ≥ domain.bound.2 then some range.bound.2
      else some ((x - domain.bound.1) * slope + range.bound.1)
  | .sigmoid domain range, x =>
      if x ≤ domain.bound.1 then some range.bound.1
      else if x ≥ domain.bound.2 then some range.bound.2
      else some (sigmoidFn ((x - domain.bound.1) / domain.length * 8 - 4)
        * range.length + range.bound.1)
  | .piecewise domain interps, x =>
      match interps with
      | [] => none
      | first :: rest =>
          if x ≤ domain.bound.1 then Interp.eval first x
          else if x ≥ domain.bound.2 then evalLast (first :: rest) x
          else evalScan (first :: rest) x

/-- Evaluation of `self.interpolators.last().unwrap()`: delegates to the last
element of the list, `none` on the empty list (the failing `unwrap`). -/
def evalLast : List Interp → ℝ → Option ℝ
  | [], _ => none
  | [i], x => Interp.eval i x
  | _ :: i :: rest, x => evalLast (i :: rest) x

/-- The linear scan of `PiecewiseInterpolator::eval`: first child whose domain
contains `x` wins; `none` models the final
`panic!("No interpolator domain contained x.")`. -/
def evalScan : List Interp → ℝ → Option ℝ
  | [], _ => none
  | i :: rest, x =>
      if (Interp.getDomain i).contains x then Interp.eval i x
      else evalScan rest x

end

/-- First child of the list whose domain contains `x`, exactly in the order of
the scan of `PiecewiseInterpolator::eval`. -/
def findContaining : List Interp → ℝ → Option Interp
  | [], _ => none
  | i :: rest, x =>
      if (Interp.getDomain i).contains x then some i
      else findContaining rest x

mutual

/-- Whether evaluating writes to standard output.  The source's
`PiecewiseInterpolator::eval` contains `println!("x: {:?}", x)` on the path
where neither early-return branch fires; leaf `eval`s never print. -/
def Interp.evalPrints : Interp → ℝ → Prop
  | .step _ _, _ => False
  | .nearestNeighbor _ _ _, _ => False
  | .linear _ _ _, _ => False
  | .sigmoid _ _, _ => False
  | .piecewise domain interps, x =>
      match interps with
      | [] => False
      | first :: rest =>
          if x ≤ domain.bound.1 then Interp.evalPrints first x
          else if x ≥ domain.bound.2 then evalPrintsLast (first :: rest) x
          else True

/-- Printing behaviour of the delegation to the last child. -/
def evalPrintsLast : List Interp → ℝ → Prop
  | [], _ => False
  | [i], x => Interp.evalPrints i x
  | _ :: i :: rest, x => evalPrintsLast (i :: rest) x

end

/-- Well-formedness of a stored interval: the cached `length` is the one
`ClosedInterval::new` computes. -/
def ClosedInterval.wf (i : ClosedInterval) : Prop :=
  i.length = i.bound.2 - i.bound.1

/-- A well-formed interval that also passed `check_bound`. -/
def ClosedInterval.validDomain (i : ClosedInterval) : Prop :=
  i.wf ∧ i.bound.1 < i.bound.2

/-- The adjacency relation checked by piecewise construction: the left child's
domain upper bound equals the right child's domain lower bound. -/
def adjacent (a b : Interp) : Prop :=
  (Interp.getDomain a).bound.2 = (Interp.getDomain b).bound.1

/-- Invariant established by successful construction: leaf domains passed
`check_bound`, cached fields (`length`, `midpoint`, `slope`) hold the values
the constructors compute, and a piecewise node has validly constructed,
contiguous children with the composite domain spanning first to last. -/
inductive Valid : Interp → Prop
  | step {d r : ClosedInterval} :
      d.validDomain → r.wf → Valid (.step d r)
  | nearestNeighbor {d r : ClosedInterval} {m : ℝ} :
      d.validDomain → r.wf →
      m = (d.bound.2 - d.bound.1) / 2 + d.bound.1 →
      Valid (.nearestNeighbor d r m)
  | linear {d r : ClosedInterval} {s : ℝ} :
      d.validDomain → r.wf →
      s = r.length / d.length →
      Valid (.linear d r s)
  | sigmoid {d r : ClosedInterval} :
      d.validDomain → r.wf → Valid (.sigmoid d r)
  | piecewise {d : ClosedInterval} {l : List Interp} :
      d.wf →
      (∀ i ∈ l, Valid i) →
      List.Chain' adjacent l →
      l.head?.map (fun i => (Interp.getDomain i).bound.1) = some d.bound.1 →
      l.getLast?.map (fun i => (Interp.getDomain i).bound.2) = some d.bound.2 →
      Valid (.piecewise d l)

/-- First child of the library's own piecewise test:
`LinearInterpolator::new((10.0, 20.0), (30.0, 40.0))`, with the slope exactly
as that constructor computes it. -/
def pwChild1 : Interp :=
  Interp.linear (ClosedInterval.new (10, 20)) (ClosedInterval.new (30, 40))
    ((ClosedInterval.new ((30 : ℝ), 40)).length
      / (ClosedInterval.new ((10 : ℝ), 20)).length)

/-- Second child of the library's own piecewise test:
`NearestNeighborInterpolator::new((20.0, 30.0), (40.0, 50.0))`, with the
midpoint exactly as that constructor computes it. -/
def pwChild2 : Interp :=
  Interp.nearestNeighbor (ClosedInterval.new (20, 30))
    (ClosedInterval.new (40, 50))
    (((ClosedInterval.new ((20 : ℝ), 30)).bound.2
        - (ClosedInterval.new ((20 : ℝ), 30)).bound.1) / 2
      + (ClosedInterval.new ((20 : ℝ), 30)).bound.1)

/-- The piecewise composite of the library's own test, spanning `[10, 30]`. -/
def pwTest : Interp :=
  Interp.piecewise (ClosedInterval.new (10, 30)) [pwChild1, pwChild2]

section Lemmas

/-- Bound stored by the interval constructor. -/
theorem ClosedInterval.bound_new (p : ℝ × ℝ) :
    (ClosedInterval.new p).bound = p := rfl

/-- Length stored by the interval constructor. -/
theorem ClosedInterval.length_new (p : ℝ × ℝ) :
    (ClosedInterval.new p).length = p.2 - p.1 := rfl

/-- Any strictly ordered pair passes `check_bound`. -/
theorem checkBoundOk_new {a b : ℝ} (h : a < b) :
    (ClosedInterval.new (a, b)).checkBoundOk := h

/-- Membership of the optional head. -/
theorem head?_mem_self {l : List Interp} {f : Interp} (h : l.head? = some f) :
    f ∈ l := by
  cases l with
  | nil => simp at h
  | cons a t => simp at h; simp [h]

/-- Membership of the optional last element. -/
theorem getLast?_mem_self {l : List Interp} {g : Interp}
    (h : l.getLast? = some g) : g ∈ l := by
  induction l with
  | nil => simp at h
  | cons a t ih =>
      cases t with
      | nil => simp at h; simp [h]
      | cons b t' =>
          rw [List.getLast?_cons_cons] at h
          exact List.mem_cons_of_mem a (ih h)

/-- Per-variant unfolding of `eval` for the step interpolator. -/
theorem eval_step (d r : ClosedInterval) (x : ℝ) :
    Interp.eval (.step d r) x
      = if x ≤ d.bound.1 then some r.bound.1 else some r.bound.2 := by
  rw [Interp.eval]

/-- Per-variant unfolding of `eval` for the nearest-neighbor interpolator. -/
theorem eval_nearestNeighbor (d r : ClosedInterval) (m x : ℝ) :
    Interp.eval (.nearestNeighbor d r m) x
      = if x ≤ m then some r.bound.1 else some r.bound.2 := by
  rw [Interp.eval]

/-- Per-variant unfolding of `eval` for the linear interpolator. -/
theorem eval_linear (d r : ClosedInterval) (s x : ℝ) :
    Interp.eval (.linear d r s) x
      = if x ≤ d.bound.1 then some r.bound.1
        else if x ≥ d.bound.2 then some r.bound.2
        else some ((x - d.bound.1) * s + r.bound.1) := by
  rw [Interp.eval]

/-- Per-variant unfolding of `eval` for the sigmoid interpolator. -/
theorem eval_sigmoid (d r : ClosedInterval) (x : ℝ) :
    Interp.eval (.sigmoid d r) x
      = if x ≤ d.bound.1 then some r.bound.1
        else if x ≥ d.bound.2 then some r.bound.2
        else some (sigmoidFn ((x - d.bound.1) / d.length * 8 - 4)
          * r.length + r.bound.1) := by
  rw [Interp.eval]

/-- Unfolding of `eval` for a nonempty piecewise interpolator. -/
theorem eval_piecewise_cons (d : ClosedInterval) (f : Interp) (rest : List Interp)
    (x : ℝ) :
    Interp.eval (.piecewise d (f :: rest)) x
      = if x ≤ d.bound.1 then Interp.eval f x
        else if x ≥ d.bound.2 then evalLast (f :: rest) x
        else evalScan (f :: rest) x := by
  rw [Interp.eval]

/-- Unfolding of the printing behaviour for a nonempty piecewise
interpolator. -/
theorem evalPrints_piecewise_cons (d : ClosedInterval) (f : Interp)
    (rest : List Interp) (x : ℝ) :
    Interp.evalPrints (.piecewise d (f :: rest)) x
      = if x ≤ d.bound.1 then Interp.evalPrints f x
        else if x ≥ d.bound.2 then evalPrintsLast (f :: rest) x
        else True := by
  rw [Interp.evalPrints]

/-- Delegation to the last element: `evalLast` evaluates exactly the
`getLast?` element. -/
theorem evalLast_eq_getLast :
    ∀ (l : List Interp) (g : Interp), l.getLast? = some g →
      ∀ x, evalLast l x = Interp.eval g x
  | [], g, h, x => by simp at h
  | [i], g, h, x => by
      simp at h
      rw [evalLast, h]
  | a :: b :: t, g, h, x => by
      rw [List.getLast?_cons_cons] at h
      rw [evalLast]
      exact evalLast_eq_getLast (b :: t) g h x

/-- The scan is evaluation of the first containing child. -/
theorem evalScan_eq_findContaining :
    ∀ (l : List Interp) (x : ℝ),
      evalScan l x = (findContaining l x).bind (fun c => Interp.eval c x)
  | [], x => by rw [evalScan, findContaining]; rfl
  | i :: rest, x => by
      rw [evalScan, findContaining]
      by_cases h : (Interp.getDomain i).contains x
      · simp [h]
      · simp [h, evalScan_eq_findContaining rest x]

/-- A successful scan result is a member whose domain contains the input. -/
theorem findContaining_mem :
    ∀ {l : List Interp} {x : ℝ} {c : Interp}, findContaining l x = some c →
      c ∈ l ∧ (Interp.getDomain c).contains x
  | [], x, c, h => by rw [findContaining] at h; simp at h
  | i :: rest, x, c, h => by
      rw [findContaining] at h
      by_cases hc : (Interp.getDomain i).contains x
      · rw [if_pos hc] at h
        cases h
        exact ⟨List.mem_cons_self i rest, hc⟩
      · rw [if_neg hc] at h
        have := findContaining_mem h
        exact ⟨List.mem_cons_of_mem i this.1, this.2⟩

/-- If some member's domain contains the input, the scan finds one. -/
theorem findContaining_isSome :
    ∀ {l : List Interp} {x : ℝ}, (∃ c ∈ l, (Interp.getDomain c).contains x) →
      (findContaining l x).isSome
  | [], x, h => by simp at h
  | i :: rest, x, h => by
      rw [findContaining]
      by_cases hc : (Interp.getDomain i).contains x
      · rw [if_pos hc]; rfl
      · rw [if_neg hc]
        obtain ⟨c, hcl, hcont⟩ := h
        rcases List.mem_cons.mp hcl with rfl | hmem
        · exact absurd hcont hc
        · exact findContaining_isSome ⟨c, hmem, hcont⟩

/-- The walking loop of the source is the chain condition on adjacent pairs,
with a pending expected left bound for the list's head. -/
theorem checkContiguous_some_iff :
    ∀ (l : List Interp) (a : ℝ),
      checkContiguous (some a) l ↔
        (∀ b ∈ l.head?, a = (Interp.getDomain b).bound.1) ∧
          List.Chain' adjacent l
  | [], a => by simp [checkContiguous]
  | i :: rest, a => by
      rw [checkContiguous, checkContiguous_some_iff rest]
      simp only [List.head?_cons, Option.mem_def, Option.some.injEq,
        List.chain'_cons']
      constructor
      · rintro ⟨rfl, hrest, hchain⟩
        exact ⟨fun b hb => hb ▸ rfl, fun y hy => hrest y hy, hchain⟩
      · rintro ⟨hhead, hrest, hchain⟩
        exact ⟨hhead i rfl, fun y hy => hrest y hy, hchain⟩

/-- The contiguity loop started with no expected bound checks exactly
chain-adjacency of consecutive children. -/
theorem checkContiguous_none_iff (l : List Interp) :
    checkContiguous none l ↔ List.Chain' adjacent l := by
  cases l with
  | nil => simp [checkContiguous]
  | cons i rest =>
      rw [checkContiguous, checkContiguous_some_iff rest, List.chain'_cons']
      constructor
      · rintro ⟨h1, h2⟩
        exact ⟨fun y hy => h1 y hy, h2⟩
      · rintro ⟨h1, h2⟩
        exact ⟨fun y hy => h1 y hy, h2⟩

/-- Along a contiguous chain of individually valid domains, the first lower
bound is strictly below the last upper bound. -/
theorem chain_first_last_lt :
    ∀ (l : List Interp),
      (∀ i ∈ l, (Interp.getDomain i).bound.1 < (Interp.getDomain i).bound.2) →
      List.Chain' adjacent l →
      ∀ f, l.head? = some f → ∀ g, l.getLast? = some g →
      (Interp.getDomain f).bound.1 < (Interp.getDomain g).bound.2
  | [], _, _, f, hf, g, hg => by simp at hf
  | [a], hmem, _, f, hf, g, hg => by
      simp only [List.head?_cons, Option.some.injEq] at hf
      simp only [List.getLast?_singleton, Option.some.injEq] at hg
      subst hf; subst hg
      exact hmem a (List.mem_singleton.mpr rfl)
  | a :: b :: t, hmem, hchain, f, hf, g, hg => by
      simp only [List.head?_cons, Option.some.injEq] at hf
      rw [List.getLast?_cons_cons] at hg
      rw [List.chain'_cons] at hchain
      have ih := chain_first_last_lt (b :: t)
        (fun i hi => hmem i (List.mem_cons_of_mem a hi)) hchain.2
        b (by simp) g hg
      have h1 : (Interp.getDomain a).bound.1 < (Interp.getDomain a).bound.2 :=
        hmem a (List.mem_cons_self a (b :: t))
      subst hf
      calc (Interp.getDomain a).bound.1
          < (Interp.getDomain a).bound.2 := h1
        _ = (Interp.getDomain b).bound.1 := hchain.1
        _ < (Interp.getDomain g).bound.2 := ih

/-- Every validly constructed interpolator has a strictly ordered domain. -/
theorem valid_domain_lt {i : Interp} (hv : Valid i) :
    (Interp.getDomain i).bound.1 < (Interp.getDomain i).bound.2 := by
  induction hv with
  | step hd hr => exact hd.2
  | nearestNeighbor hd hr hm => exact hd.2
  | linear hd hr hs => exact hd.2
  | sigmoid hd hr => exact hd.2
  | piecewise hwf hall hchain hhead hlast ih =>
      obtain ⟨f, hf, hfl⟩ := Option.map_eq_some'.mp hhead
      obtain ⟨g, hg, hgl⟩ := Option.map_eq_some'.mp hlast
      rw [Interp.getDomain, ← hfl, ← hgl]
      exact chain_first_last_lt _ (fun j hj => ih j hj) hchain f hf g hg

/-- In a nonempty contiguous chain, any point between the first lower bound
and the last upper bound lies in some child's domain. -/
theorem exists_containing :
    ∀ (l : List Interp) (x : ℝ),
      List.Chain' adjacent l →
      ∀ f, l.head? = some f → ∀ g, l.getLast? = some g →
      (Interp.getDomain f).bound.1 ≤ x → x ≤ (Interp.getDomain g).bound.2 →
      ∃ c ∈ l, (Interp.getDomain c).contains x
  | [], x, _, f, hf, g, hg, _, _ => by simp at hf
  | [a], x, _, f, hf, g, hg, h1, h2 => by
      simp only [List.head?_cons, Option.some.injEq] at hf
      simp only [List.getLast?_singleton, Option.some.injEq] at hg
      subst hf; subst hg
      exact ⟨a, List.mem_singleton.mpr rfl, h1, h2⟩
  | a :: b :: t, x, hchain, f, hf, g, hg, h1, h2 => by
      simp only [List.head?_cons, Option.some.injEq] at hf
      rw [List.getLast?_cons_cons] at hg
      rw [List.chain'_cons] at hchain
      subst hf
      by_cases hxa : x ≤ (Interp.getDomain a).bound.2
      · exact ⟨a, List.mem_cons_self a (b :: t), h1, hxa⟩
      · have hbl : (Interp.getDomain b).bound.1 ≤ x := by
          rw [← hchain.1]; exact le_of_not_le hxa
        obtain ⟨c, hc, hcont⟩ :=
          exists_containing (b :: t) x hchain.2 b (by simp) g hg hbl h2
        exact ⟨c, List.mem_cons_of_mem a hc, hcont⟩

/-- Flat extension on the left: at or below the domain lower bound, `eval`
agrees with its value at the lower bound. -/
theorem eval_flat_low {i : Interp} (hv : Valid i) :
    ∀ x, x ≤ (Interp.getDomain i).bound.1 →
      Interp.eval i x = Interp.eval i (Interp.getDomain i).bound.1 := by
  induction hv with
  | @step d r hd hr =>
      intro x hx
      rw [Interp.getDomain] at hx ⊢
      rw [eval_step, eval_step, if_pos hx, if_pos le_rfl]
  | @nearestNeighbor d r m hd hr hm =>
      intro x hx
      rw [Interp.getDomain] at hx ⊢
      have hlm : d.bound.1 ≤ m := by rw [hm]; linarith [hd.2]
      rw [eval_nearestNeighbor, eval_nearestNeighbor,
        if_pos (le_trans hx hlm), if_pos hlm]
  | @linear d r s hd hr hs =>
      intro x hx
      rw [Interp.getDomain] at hx ⊢
      rw [eval_linear, eval_linear, if_pos hx, if_pos le_rfl]
  | @sigmoid d r hd hr =>
      intro x hx
      rw [Interp.getDomain] at hx ⊢
      rw [eval_sigmoid, eval_sigmoid, if_pos hx, if_pos le_rfl]
  | @piecewise d l hwf hall hchain hhead hlast ih =>
      intro x hx
      rw [Interp.getDomain] at hx ⊢
      cases l with
      | nil => simp at hhead
      | cons a rest =>
          simp only [List.head?_cons, Option.map_some', Option.some.injEq]
            at hhead
          rw [eval_piecewise_cons, eval_piecewise_cons, if_pos hx,
            if_pos le_rfl]
          have ha : a ∈ a :: rest := List.mem_cons_self a rest
          rw [ih a ha x (by rw [hhead]; exact hx),
            ih a ha d.bound.1 (by rw [hhead])]

/-- Flat extension on the right: at or above the domain upper bound, `eval`
agrees with its value at the upper bound. -/
theorem eval_flat_high {i : Interp} (hv : Valid i) :
    ∀ x, (Interp.getDomain i).bound.2 ≤ x →
      Interp.eval i x = Interp.eval i (Interp.getDomain i).bound.2 := by
  induction hv with
  | @step d r hd hr =>
      intro x hx
      rw [Interp.getDomain] at hx ⊢
      rw [eval_step, eval_step,
        if_neg (not_le.mpr (lt_of_lt_of_le hd.2 hx)),
        if_neg (not_le.mpr hd.2)]
  | @nearestNeighbor d r m hd hr hm =>
      intro x hx
      rw [Interp.getDomain] at hx ⊢
      have hml : m < d.bound.2 := by rw [hm]; linarith [hd.2]
      rw [eval_nearestNeighbor, eval_nearestNeighbor,
        if_neg (not_le.mpr (lt_of_lt_of_le hml hx)),
        if_neg (not_le.mpr hml)]
  | @linear d r s hd hr hs =>
      intro x hx
      rw [Interp.getDomain] at hx ⊢
      rw [eval_linear, eval_linear,
        if_neg (not_le.mpr (lt_of_lt_of_le hd.2 hx)),
        if_neg (not_le.mpr hd.2), if_pos hx, if_pos le_rfl]
  | @sigmoid d r hd hr =>
      intro x hx
      rw [Interp.getDomain] at hx ⊢
      rw [eval_sigmoid, eval_sigmoid,
        if_neg (not_le.mpr (lt_of_lt_of_le hd.2 hx)),
        if_neg (not_le.mpr hd.2), if_pos hx, if_pos le_rfl]
  | @piecewise d l hwf hall hchain hhead hlast ih =>
      intro x hx
      rw [Interp.getDomain] at hx ⊢
      have hdlt : d.bound.1 < d.bound.2 := by
        have := valid_domain_lt (Valid.piecewise hwf hall hchain hhead hlast)
        rwa [Interp.getDomain] at this
      obtain ⟨g, hg, hgl⟩ := Option.map_eq_some'.mp hlast
      have hgmem : g ∈ l := getLast?_mem_self hg
      cases l with
      | nil => simp at hhead
      | cons a rest =>
          rw [eval_piecewise_cons, eval_piecewise_cons,
            if_neg (not_le.mpr (lt_of_lt_of_le hdlt hx)),
            if_neg (not_le.mpr hdlt), if_pos hx, if_pos le_rfl,
            evalLast_eq_getLast (a :: rest) g hg,
            evalLast_eq_getLast (a :: rest) g hg]
          rw [ih g hgmem x (by rw [hgl]; exact hx),
            ih g hgmem d.bound.2 (by rw [hgl])]

/-- Every validly constructed interpolator evaluates without reaching a
`panic!`: `eval` is total. -/
theorem eval_isSome {i : Interp} (hv : Valid i) :
    ∀ x, (Interp.eval i x).isSome := by
  induction hv with
  | @step d r hd hr =>
      intro x; rw [eval_step]; split <;> rfl
  | @nearestNeighbor d r m hd hr hm =>
      intro x; rw [eval_nearestNeighbor]; split <;> rfl
  | @linear d r s hd hr hs =>
      intro x; rw [eval_linear]; split
      · rfl
      · split <;> rfl
  | @sigmoid d r hd hr =>
      intro x; rw [eval_sigmoid]; split
      · rfl
      · split <;> rfl
  | @piecewise d l hwf hall hchain hhead hlast ih =>
      intro x
      obtain ⟨f, hf, hfl⟩ := Option.map_eq_some'.mp hhead
      obtain ⟨g, hg, hgl⟩ := Option.map_eq_some'.mp hlast
      cases l with
      | nil => simp at hf
      | cons a rest =>
          simp only [List.head?_cons, Option.some.injEq] at hf
          subst hf
          rw [eval_piecewise_cons]
          by_cases hx1 : x ≤ d.bound.1
          · rw [if_pos hx1]
            exact ih a (List.mem_cons_self a rest) x
          · rw [if_neg hx1]
            by_cases hx2 : x ≥ d.bound.2
            · rw [if_pos hx2, evalLast_eq_getLast (a :: rest) g hg]
              exact ih g (getLast?_mem_self hg) x
            · rw [if_neg hx2]
              have hex : ∃ c ∈ a :: rest, (Interp.getDomain c).contains x := by
                refine exists_containing (a :: rest) x hchain a rfl g hg ?_ ?_
                · rw [hfl]; exact le_of_not_le hx1
                · rw [hgl]; exact le_of_not_le hx2
              obtain ⟨c, hcfind⟩ :=
                Option.isSome_iff_exists.mp (findContaining_isSome hex)
              have hcmem := (findContaining_mem hcfind).1
              rw [evalScan_eq_findContaining, hcfind]
              exact ih c hcmem x

/-- A successful step construction yields a valid interpolator. -/
theorem step_new_valid {dl dh rl rh : ℝ} {i : Interp}
    (h : StepInterpolator.new (dl, dh) (rl, rh) = .ok i) : Valid i := by
  rw [StepInterpolator.new] at h
  by_cases hc : (ClosedInterval.new (dl, dh)).checkBoundOk
  · rw [if_pos hc] at h
    cases h
    exact Valid.step ⟨rfl, hc⟩ rfl
  · rw [if_neg hc] at h
    cases h

/-- A successful nearest-neighbor construction yields a valid interpolator. -/
theorem nearestNeighbor_new_valid {dl dh rl rh : ℝ} {i : Interp}
    (h : NearestNeighborInterpolator.new (dl, dh) (rl, rh) = .ok i) :
    Valid i := by
  rw [NearestNeighborInterpolator.new] at h
  by_cases hc : (ClosedInterval.new (dl, dh)).checkBoundOk
  · rw [if_pos hc] at h
    cases h
    exact Valid.nearestNeighbor ⟨rfl, hc⟩ rfl rfl
  · rw [if_neg hc] at h
    cases h

/-- Linear construction never fails; with a strictly ordered domain the result
is valid. -/
theorem linear_new_valid {dl dh rl rh : ℝ} {i : Interp} (hlt : dl < dh)
    (h : LinearInterpolator.new (dl, dh) (rl, rh) = .ok i) : Valid i := by
  rw [LinearInterpolator.new] at h
  cases h
  exact Valid.linear ⟨rfl, hlt⟩ rfl rfl

/-- A successful sigmoid construction yields a valid interpolator. -/
theorem sigmoid_new_valid {dl dh rl rh : ℝ} {i : Interp}
    (h : SigmoidInterpolator.new (dl, dh) (rl, rh) = .ok i) : Valid i := by
  rw [SigmoidInterpolator.new] at h
  by_cases hc : (ClosedInterval.new (dl, dh)).checkBoundOk
  · rw [if_pos hc] at h
    cases h
    exact Valid.sigmoid ⟨rfl, hc⟩ rfl
  · rw [if_neg hc] at h
    cases h

/-- A successful piecewise construction from valid children yields a valid
composite. -/
theorem piecewise_new_valid {l : List Interp} {p : Interp}
    (hall : ∀ c ∈ l, Valid c)
    (h : PiecewiseInterpolator.new l = .ok p) : Valid p := by
  cases l with
  | nil => rw [PiecewiseInterpolator.new] at h; cases h
  | cons first rest =>
      rw [PiecewiseInterpolator.new] at h
      by_cases hc : checkContiguous none (first :: rest)
      · rw [if_pos hc] at h
        cases h
        refine Valid.piecewise rfl hall
          ((checkContiguous_none_iff _).mp hc) ?_ ?_
        · rfl
        · rw [List.getLast?_eq_getLast_of_ne_nil (List.cons_ne_nil first rest)]
          rfl
      · rw [if_neg hc] at h
        cases h

/-- Piecewise construction of the library's own test succeeds and yields the
expected composite. -/
theorem pwTest_new_ok :
    PiecewiseInterpolator.new [pwChild1, pwChild2] = .ok pwTest := by
  rw [PiecewiseInterpolator.new, if_pos ?_]
  · rfl
  · rw [checkContiguous, checkContiguous]
    refine ⟨rfl, ?_⟩
    rw [checkContiguous]
    trivial

/-- Both children of the test fixture are valid. -/
theorem pwChildren_valid : ∀ j ∈ [pwChild1, pwChild2], Valid j := by
  intro j hj
  rcases List.mem_cons.mp hj with rfl | hj2
  · exact Valid.linear ⟨rfl, show (10:ℝ) < 20 by norm_num⟩ rfl rfl
  · rcases List.mem_cons.mp hj2 with rfl | hj3
    · exact Valid.nearestNeighbor ⟨rfl, show (20:ℝ) < 30 by norm_num⟩ rfl rfl
    · simp at hj3

/-- The logistic function at 0 is exactly one half. -/
theorem sigmoidFn_zero : sigmoidFn 0 = 1 / 2 := by
  rw [sigmoidFn, neg_zero, Real.exp_zero]
  norm_num

/-- The logistic function is strictly positive. -/
theorem sigmoidFn_pos (x : ℝ) : 0 < sigmoidFn x := by
  rw [sigmoidFn]
  positivity

/-- The logistic function is strictly below one. -/
theorem sigmoidFn_lt_one (x : ℝ) : sigmoidFn x < 1 := by
  rw [sigmoidFn, div_lt_one (by positivity)]
  linarith [Real.exp_pos (-x)]

/-- A convex combination `a + t * (b - a)` with `t` in the unit interval stays
between the two endpoints, whichever order they come in. -/
theorem convex_combination_bounds {a b t : ℝ} (h0 : 0 ≤ t) (h1 : t ≤ 1) :
    min a b ≤ a + t * (b - a) ∧ a + t * (b - a) ≤ max a b := by
  rcases le_total a b with h | h
  · rw [min_eq_left h, max_eq_right h]
    constructor <;> nlinarith
  · rw [min_eq_right h, max_eq_left h]
    constructor <;> nlinarith

end Lemmas

section Claims

/-- C1: the claim states that every leaf variant's constructor rejects a
domain with `low >= high` via an `InvalidInterval` condition.  The source's
`StepInterpolator::new`, `NearestNeighborInterpolator::new` and
`SigmoidInterpolator::new` do call `check_bound`, but `LinearInterpolator::new`
never does: constructing a linear interpolator with the inverted domain
`(20, 10)` succeeds instead of failing. -/
theorem linear_constructor_accepts_inverted_domain :
    (20 : ℝ) ≥ 10 ∧
      LinearInterpolator.new (20, 10) (0, 1)
        = .ok (Interp.linear (ClosedInterval.new (20, 10))
            (ClosedInterval.new (0, 1))
            ((ClosedInterval.new ((0 : ℝ), 1)).length
              / (ClosedInterval.new ((20 : ℝ), 10)).length)) :=
  ⟨by norm_num, rfl⟩

/-- C6: a linear interpolator built on domain `(dl, dh)` with `dl < dh` and
range `(rl, rh)` clamps to `rl` at or below `dl` and to `rh` at or above `dh`;
strictly inside the domain it returns
`rl + (x - dl) * slope` with `slope = (rh - rl) / (dh - dl)`, and at the
domain midpoint it returns the arithmetic mean of `rl` and `rh`. -/
theorem linear_eval_formula (dl dh rl rh x : ℝ) (hlt : dl < dh) (i : Interp)
    (hok : LinearInterpolator.new (dl, dh) (rl, rh) = .ok i) :
    (x ≤ dl → Interp.eval i x = some rl) ∧
    (dh ≤ x → Interp.eval i x = some rh) ∧
    (dl < x → x < dh →
      Interp.eval i x = some (rl + (x - dl) * ((rh - rl) / (dh - dl)))) ∧
    Interp.eval i ((dl + dh) / 2) = some ((rl + rh) / 2) := by
  rw [LinearInterpolator.new] at hok
  cases hok
  have hne : dh - dl ≠ 0 := sub_ne_zero.mpr (ne_of_gt hlt)
  refine ⟨?_, ?_, ?_, ?_⟩
  · intro hx
    rw [eval_linear]
    simp only [ClosedInterval.bound_new, ClosedInterval.length_new]
    rw [if_pos hx]
  · intro hx
    rw [eval_linear]
    simp only [ClosedInterval.bound_new, ClosedInterval.length_new]
    rw [if_neg (not_le.mpr (lt_of_lt_of_le hlt hx)), if_pos hx]
  · intro hx1 hx2
    rw [eval_linear]
    simp only [ClosedInterval.bound_new, ClosedInterval.length_new]
    rw [if_neg (not_le.mpr hx1), if_neg (not_le.mpr hx2)]
    congr 1
    ring
  · have hm1 : dl < (dl + dh) / 2 := by linarith
    have hm2 : (dl + dh) / 2 < dh := by linarith
    rw [eval_linear]
    simp only [ClosedInterval.bound_new, ClosedInterval.length_new]
    rw [if_neg (not_le.mpr hm1), if_neg (not_le.mpr hm2)]
    congr 1
    field_simp
    ring

/-- C7: a sigmoid interpolator built on domain `(dl, dh)` with `dl < dh` and
range `(rl, rh)` clamps exactly as the linear variant does; strictly inside
the domain it rescales into the logistic window via
`(x - dl) / (dh - dl) * 8 - 4`, applies the logistic function, and maps into
the range; at the domain midpoint the rescaled input is `0`, so the result is
exactly `rl + (rh - rl) / 2`. -/
theorem sigmoid_eval_formula (dl dh rl rh x : ℝ) (hlt : dl < dh) (i : Interp)
    (hok : SigmoidInterpolator.new (dl, dh) (rl, rh) = .ok i) :
    (x ≤ dl → Interp.eval i x = some rl) ∧
    (dh ≤ x → Interp.eval i x = some rh) ∧
    (dl < x → x < dh →
      Interp.eval i x = some (sigmoidFn ((x - dl) / (dh - dl) * 8 - 4)
        * (rh - rl) + rl)) ∧
    Interp.eval i ((dl + dh) / 2) = some (rl + (rh - rl) / 2) := by
  rw [SigmoidInterpolator.new, if_pos (checkBoundOk_new hlt)] at hok
  cases hok
  have hne : dh - dl ≠ 0 := sub_ne_zero.mpr (ne_of_gt hlt)
  refine ⟨?_, ?_, ?_, ?_⟩
  · intro hx
    rw [eval_sigmoid]
    simp only [ClosedInterval.bound_new, ClosedInterval.length_new]
    rw [if_pos hx]
  · intro hx
    rw [eval_sigmoid]
    simp only [ClosedInterval.bound_new, ClosedInterval.length_new]
    rw [if_neg (not_le.mpr (lt_of_lt_of_le hlt hx)), if_pos hx]
  · intro hx1 hx2
    rw [eval_sigmoid]
    simp only [ClosedInterval.bound_new, ClosedInterval.length_new]
    rw [if_neg (not_le.mpr hx1), if_neg (not_le.mpr hx2)]
  · have hm1 : dl < (dl + dh) / 2 := by linarith
    have hm2 : (dl + dh) / 2 < dh := by linarith
    rw [eval_sigmoid]
    simp only [ClosedInterval.bound_new, ClosedInterval.length_new]
    rw [if_neg (not_le.mpr hm1), if_neg (not_le.mpr hm2)]
    have harg : ((dl + dh) / 2 - dl) / (dh - dl) * 8 - 4 = 0 := by
      field_simp
      ring
    rw [harg, sigmoidFn_zero]
    congr 1
    ring

/-- C8: a nearest-neighbor interpolator built on domain `(dl, dh)` with
`dl < dh` stores exactly the midpoint `dl + (dh - dl) / 2`; `eval` returns
`rl` for every input at or below the midpoint (the midpoint itself included)
and `rh` strictly above it. -/
theorem nearestNeighbor_midpoint_eval (dl dh rl rh x : ℝ) (hlt : dl < dh)
    (i : Interp)
    (hok : NearestNeighborInterpolator.new (dl, dh) (rl, rh) = .ok i) :
    i = Interp.nearestNeighbor (ClosedInterval.new (dl, dh))
        (ClosedInterval.new (rl, rh)) (dl + (dh - dl) / 2) ∧
    (x ≤ dl + (dh - dl) / 2 → Interp.eval i x = some rl) ∧
    (dl + (dh - dl) / 2 < x → Interp.eval i x = some rh) ∧
    Interp.eval i (dl + (dh - dl) / 2) = some rl := by
  rw [NearestNeighborInterpolator.new, if_pos (checkBoundOk_new hlt)] at hok
  cases hok
  have hmid : ((ClosedInterval.new (dl, dh)).bound.2
      - (ClosedInterval.new (dl, dh)).bound.1) / 2
      + (ClosedInterval.new (dl, dh)).bound.1 = dl + (dh - dl) / 2 := by
    simp only [ClosedInterval.bound_new]
    ring
  refine ⟨?_, ?_, ?_, ?_⟩
  · rw [hmid]
  · intro hx
    rw [eval_nearestNeighbor, if_pos (le_of_le_of_eq hx hmid.symm)]
    rfl
  · intro hx
    rw [eval_nearestNeighbor, if_neg (not_le.mpr (hmid.symm ▸ hx))]
    rfl
  · rw [eval_nearestNeighbor, if_pos (le_of_eq hmid.symm)]
    rfl

/-- C2: for every validly constructed interpolator (piecewise included),
`exceeds_domain x` holds iff `x` is at or above the interpolator's own domain
upper bound, `eval` is flat-extended outside the domain (its value at any
point at or below the lower bound, respectively at or above the upper bound,
equals its value at that boundary), and consequently once `exceeds_domain`
holds at `x`, `eval (x + e)` equals `eval x` for every `e >= 0`. -/
theorem exceeds_domain_iff_and_flat_extension (i : Interp) (hv : Valid i)
    (x e : ℝ) (he : 0 ≤ e) :
    (Interp.exceedsDomain i x ↔ x ≥ (Interp.getDomain i).bound.2) ∧
    (x ≤ (Interp.getDomain i).bound.1 →
      Interp.eval i x = Interp.eval i (Interp.getDomain i).bound.1) ∧
    ((Interp.getDomain i).bound.2 ≤ x →
      Interp.eval i x = Interp.eval i (Interp.getDomain i).bound.2) ∧
    (Interp.exceedsDomain i x → Interp.eval i (x + e) = Interp.eval i x) := by
  have hiff : ∀ y : ℝ,
      Interp.exceedsDomain i y ↔ y ≥ (Interp.getDomain i).bound.2 := by
    intro y
    cases i <;> exact Iff.rfl
  refine ⟨hiff x, eval_flat_low hv x, eval_flat_high hv x, ?_⟩
  intro hexc
  have hx : (Interp.getDomain i).bound.2 ≤ x := (hiff x).mp hexc
  rw [eval_flat_high hv x hx, eval_flat_high hv (x + e) (by linarith)]

/-- C3: a successfully constructed piecewise interpolator with valid children
delegates `eval` to the first child at or below the composite lower bound, to
the last child at or above the composite upper bound, and strictly inside the
composite domain to the first child in sequence order whose domain contains
the input (the result of the scan `findContaining`), returning exactly that
child's own `eval`. -/
theorem piecewise_eval_delegation (l : List Interp) (p f g c : Interp)
    (hok : PiecewiseInterpolator.new l = .ok p)
    (hall : ∀ j ∈ l, Valid j) (x : ℝ)
    (hf : l.head? = some f) (hg : l.getLast? = some g) :
    (x ≤ (Interp.getDomain p).bound.1 →
      Interp.eval p x = Interp.eval f x) ∧
    ((Interp.getDomain p).bound.2 ≤ x →
      Interp.eval p x = Interp.eval g x) ∧
    ((Interp.getDomain p).bound.1 < x → x < (Interp.getDomain p).bound.2 →
      findContaining l x = some c → Interp.eval p x = Interp.eval c x) := by
  have hvp : Valid p := piecewise_new_valid hall hok
  have hdlt := valid_domain_lt hvp
  cases l with
  | nil => simp at hf
  | cons a rest =>
      rw [PiecewiseInterpolator.new] at hok
      by_cases hcc : checkContiguous none (a :: rest)
      · rw [if_pos hcc] at hok
        cases hok
        simp only [List.head?_cons, Option.some.injEq] at hf
        subst hf
        rw [Interp.getDomain] at hdlt ⊢
        refine ⟨?_, ?_, ?_⟩
        · intro hx
          rw [eval_piecewise_cons, if_pos hx]
        · intro hx
          rw [eval_piecewise_cons,
            if_neg (not_le.mpr (lt_of_lt_of_le hdlt hx)), if_pos hx,
            evalLast_eq_getLast (a :: rest) g hg]
        · intro hx1 hx2 hfind
          rw [eval_piecewise_cons, if_neg (not_le.mpr hx1),
            if_neg (not_le.mpr hx2), evalScan_eq_findContaining, hfind]
          rfl
      · rw [if_neg hcc] at hok
        cases hok

/-- C4: piecewise construction fails with `NoInterpolators` on the empty
sequence; on a nonempty sequence it fails with `DiscontinuousDomain` exactly
when some child's domain upper bound differs from the next child's domain
lower bound, and otherwise succeeds with composite domain spanning the first
child's lower bound to the last child's upper bound. -/
theorem piecewise_construction_errors (l : List Interp) (f g : Interp)
    (hf : l.head? = some f) (hg : l.getLast? = some g) :
    PiecewiseInterpolator.new ([] : List Interp)
      = .error .noInterpolators ∧
    (¬ List.Chain' adjacent l →
      PiecewiseInterpolator.new l = .error .discontinuousDomain) ∧
    (List.Chain' adjacent l →
      PiecewiseInterpolator.new l = .ok (Interp.piecewise
        (ClosedInterval.new ((Interp.getDomain f).bound.1,
          (Interp.getDomain g).bound.2)) l)) := by
  refine ⟨rfl, ?_, ?_⟩
  · intro hnc
    cases l with
    | nil => simp at hf
    | cons a rest =>
        rw [PiecewiseInterpolator.new,
          if_neg (fun hcc => hnc ((checkContiguous_none_iff _).mp hcc))]
  · intro hchain
    cases l with
    | nil => simp at hf
    | cons a rest =>
        simp only [List.head?_cons, Option.some.injEq] at hf
        subst hf
        rw [PiecewiseInterpolator.new,
          if_pos ((checkContiguous_none_iff _).mpr hchain)]
        have hlast := List.getLast?_eq_getLast_of_ne_nil
          (List.cons_ne_nil a rest)
        rw [hg] at hlast
        rw [Option.some.injEq] at hlast
        rw [← hlast]

/-- C5: for a piecewise interpolator that passed construction with valid
children, `eval` never reaches the internal no-child-contains-x `panic!`:
evaluation is total, and every input strictly inside the composite domain is
contained in some child's domain. -/
theorem piecewise_eval_never_faults (l : List Interp) (p : Interp)
    (hok : PiecewiseInterpolator.new l = .ok p)
    (hall : ∀ j ∈ l, Valid j) (x : ℝ) :
    (Interp.eval p x).isSome ∧
    ((Interp.getDomain p).bound.1 < x → x < (Interp.getDomain p).bound.2 →
      ∃ c ∈ l, (Interp.getDomain c).contains x) := by
  have hvp : Valid p := piecewise_new_valid hall hok
  refine ⟨eval_isSome hvp x, ?_⟩
  intro hx1 hx2
  cases l with
  | nil => rw [PiecewiseInterpolator.new] at hok; cases hok
  | cons a rest =>
      rw [PiecewiseInterpolator.new] at hok
      by_cases hcc : checkContiguous none (a :: rest)
      · rw [if_pos hcc] at hok
        cases hok
        rw [Interp.getDomain] at hx1 hx2
        have hlast := List.getLast?_eq_getLast_of_ne_nil
          (List.cons_ne_nil a rest)
        refine exists_containing (a :: rest) x
          ((checkContiguous_none_iff _).mp hcc) a rfl
          ((a :: rest).getLast (List.cons_ne_nil a rest)) hlast
          (le_of_lt hx1) (le_of_lt hx2)
      · rw [if_neg hcc] at hok
        cases hok

/-- C9: the claim states that `eval` performs no I/O for any variant; the
source's `PiecewiseInterpolator::eval` contains a `println!` that fires for
every input strictly inside the composite domain.  Reproducing the library's
own piecewise test (`Linear((10,20),(30,40))` then
`NearestNeighbor((20,30),(40,50))`), evaluating at `15` writes to standard
output. -/
theorem piecewise_eval_prints_debug_output :
    LinearInterpolator.new (10, 20) (30, 40) = .ok pwChild1 ∧
    NearestNeighborInterpolator.new (20, 30) (40, 50) = .ok pwChild2 ∧
    PiecewiseInterpolator.new [pwChild1, pwChild2] = .ok pwTest ∧
    Interp.evalPrints pwTest 15 := by
  refine ⟨rfl, ?_, pwTest_new_ok, ?_⟩
  · rw [NearestNeighborInterpolator.new,
      if_pos (checkBoundOk_new (by norm_num))]
    rfl
  · show Interp.evalPrints
      (Interp.piecewise (ClosedInterval.new (10, 30)) [pwChild1, pwChild2]) 15
    rw [evalPrints_piecewise_cons,
      if_neg (show ¬((15:ℝ) ≤ (ClosedInterval.new ((10:ℝ), 30)).bound.1)
        from by simp only [ClosedInterval.bound_new]; norm_num),
      if_neg (show ¬((15:ℝ) ≥ (ClosedInterval.new ((10:ℝ), 30)).bound.2)
        from by simp only [ClosedInterval.bound_new]; norm_num)]
    trivial

/-- C10: for every leaf variant successfully constructed on a valid domain,
every defined evaluation result lies between the smaller and the larger of
the two range endpoints (the range may be given inverted). -/
theorem leaf_eval_within_range (dl dh rl rh x y : ℝ) (hlt : dl < dh)
    (i : Interp)
    (hok : StepInterpolator.new (dl, dh) (rl, rh) = .ok i ∨
      NearestNeighborInterpolator.new (dl, dh) (rl, rh) = .ok i ∨
      LinearInterpolator.new (dl, dh) (rl, rh) = .ok i ∨
      SigmoidInterpolator.new (dl, dh) (rl, rh) = .ok i)
    (hy : Interp.eval i x = some y) :
    min rl rh ≤ y ∧ y ≤ max rl rh := by
  have hne : (0 : ℝ) < dh - dl := by linarith
  rcases hok with h | h | h | h
  · rw [StepInterpolator.new, if_pos (checkBoundOk_new hlt)] at h
    cases h
    rw [eval_step] at hy
    simp only [ClosedInterval.bound_new] at hy
    by_cases hc : x ≤ dl
    · rw [if_pos hc] at hy
      cases hy
      exact ⟨min_le_left _ _, le_max_left _ _⟩
    · rw [if_neg hc] at hy
      cases hy
      exact ⟨min_le_right _ _, le_max_right _ _⟩
  · rw [NearestNeighborInterpolator.new, if_pos (checkBoundOk_new hlt)] at h
    cases h
    rw [eval_nearestNeighbor] at hy
    simp only [ClosedInterval.bound_new] at hy
    by_cases hc : x ≤ ((dl, dh).2 - (dl, dh).1) / 2 + (dl, dh).1
    · rw [if_pos hc] at hy
      cases hy
      exact ⟨min_le_left _ _, le_max_left _ _⟩
    · rw [if_neg hc] at hy
      cases hy
      exact ⟨min_le_right _ _, le_max_right _ _⟩
  · rw [LinearInterpolator.new] at h
    cases h
    rw [eval_linear] at hy
    simp only [ClosedInterval.bound_new, ClosedInterval.length_new] at hy
    by_cases hc1 : x ≤ dl
    · rw [if_pos hc1] at hy
      cases hy
      exact ⟨min_le_left _ _, le_max_left _ _⟩
    · rw [if_neg hc1] at hy
      by_cases hc2 : x ≥ dh
      · rw [if_pos hc2] at hy
        cases hy
        exact ⟨min_le_right _ _, le_max_right _ _⟩
      · rw [if_neg hc2] at hy
        cases hy
        have h0 : 0 ≤ (x - dl) / (dh - dl) :=
          div_nonneg (by linarith [not_le.mp hc1]) (le_of_lt hne)
        have h1 : (x - dl) / (dh - dl) ≤ 1 := by
          rw [div_le_one hne]
          linarith [not_le.mp hc2]
        have hb := convex_combination_bounds (a := rl) (b := rh) h0 h1
        have hform : (x - dl) * ((rh - rl) / (dh - dl)) + rl
            = rl + (x - dl) / (dh - dl) * (rh - rl) := by ring
        rw [hform]
        exact hb
  · rw [SigmoidInterpolator.new, if_pos (checkBoundOk_new hlt)] at h
    cases h
    rw [eval_sigmoid] at hy
    simp only [ClosedInterval.bound_new, ClosedInterval.length_new] at hy
    by_cases hc1 : x ≤ dl
    · rw [if_pos hc1] at hy
      cases hy
      exact ⟨min_le_left _ _, le_max_left _ _⟩
    · rw [if_neg hc1] at hy
      by_cases hc2 : x ≥ dh
      · rw [if_pos hc2] at hy
        cases hy
        exact ⟨min_le_right _ _, le_max_right _ _⟩
      · rw [if_neg hc2] at hy
        cases hy
        have h0 : 0 ≤ sigmoidFn ((x - dl) / (dh - dl) * 8 - 4) :=
          le_of_lt (sigmoidFn_pos _)
        have h1 : sigmoidFn ((x - dl) / (dh - dl) * 8 - 4) ≤ 1 :=
          le_of_lt (sigmoidFn_lt_one _)
        have hb := convex_combination_bounds (a := rl) (b := rh) h0 h1
        have hform : sigmoidFn ((x - dl) / (dh - dl) * 8 - 4) * (rh - rl) + rl
            = rl + sigmoidFn ((x - dl) / (dh - dl) * 8 - 4) * (rh - rl) := by
          ring
        rw [hform]
        exact hb

/-- Witness for C2: the step interpolator on domain `(10, 20)` and range
`(100, 200)` is valid, and at `x = 25` (past the upper bound) adding `e = 5`
does not change the evaluation. -/
theorem exceeds_domain_iff_and_flat_extension_witness :
    Valid (Interp.step (ClosedInterval.new (10, 20))
      (ClosedInterval.new (100, 200))) ∧
    (0 : ℝ) ≤ 5 ∧
    Interp.eval (Interp.step (ClosedInterval.new (10, 20))
      (ClosedInterval.new (100, 200))) (25 + 5)
      = Interp.eval (Interp.step (ClosedInterval.new (10, 20))
          (ClosedInterval.new (100, 200))) 25 :=
  ⟨Valid.step (d := ClosedInterval.new (10, 20))
      (r := ClosedInterval.new (100, 200)) ⟨rfl, show (10:ℝ) < 20 by norm_num⟩
      rfl,
   by norm_num,
   (exceeds_domain_iff_and_flat_extension _
      (Valid.step (d := ClosedInterval.new (10, 20))
        (r := ClosedInterval.new (100, 200))
        ⟨rfl, show (10:ℝ) < 20 by norm_num⟩ rfl) 25 5
      (by norm_num)).2.2.2
      (show (25:ℝ) ≥ 20 by norm_num)⟩

/-- Witness for C3: the test composite evaluated at `15` (inside the first
child's domain) equals the first child's own evaluation. -/
theorem piecewise_eval_delegation_witness :
    PiecewiseInterpolator.new [pwChild1, pwChild2] = .ok pwTest ∧
    findContaining [pwChild1, pwChild2] 15 = some pwChild1 ∧
    Interp.eval pwTest 15 = Interp.eval pwChild1 15 := by
  have hcont : (Interp.getDomain pwChild1).contains 15 := by
    show (15:ℝ) ≥ 10 ∧ (15:ℝ) ≤ 20
    norm_num
  have hfind : findContaining [pwChild1, pwChild2] 15 = some pwChild1 := by
    rw [findContaining, if_pos hcont]
  exact ⟨pwTest_new_ok, hfind,
    (piecewise_eval_delegation [pwChild1, pwChild2] pwTest pwChild1 pwChild2
      pwChild1 pwTest_new_ok pwChildren_valid 15 rfl rfl).2.2
      (show (10:ℝ) < 15 by norm_num) (show (15:ℝ) < 30 by norm_num) hfind⟩

/-- Witness for C4: the empty sequence is rejected, and the contiguous test
children construct the composite spanning `[10, 30]`. -/
theorem piecewise_construction_errors_witness :
    PiecewiseInterpolator.new ([] : List Interp)
      = .error .noInterpolators ∧
    PiecewiseInterpolator.new [pwChild1, pwChild2]
      = .ok (Interp.piecewise (ClosedInterval.new
          ((Interp.getDomain pwChild1).bound.1,
           (Interp.getDomain pwChild2).bound.2)) [pwChild1, pwChild2]) := by
  have hchain : List.Chain' adjacent [pwChild1, pwChild2] :=
    List.chain'_cons.mpr ⟨rfl, List.chain'_singleton _⟩
  have h := piecewise_construction_errors [pwChild1, pwChild2]
    pwChild1 pwChild2 rfl rfl
  exact ⟨h.1, h.2.2 hchain⟩

/-- Witness for C5: evaluating the test composite at `15` is defined, and a
child containing `15` exists. -/
theorem piecewise_eval_never_faults_witness :
    (Interp.eval pwTest 15).isSome ∧
    ∃ c ∈ [pwChild1, pwChild2], (Interp.getDomain c).contains 15 := by
  have h := piecewise_eval_never_faults [pwChild1, pwChild2] pwTest
    pwTest_new_ok pwChildren_valid 15
  exact ⟨h.1, h.2 (show (10:ℝ) < 15 by norm_num)
    (show (15:ℝ) < 30 by norm_num)⟩

/-- Witness for C6: the linear interpolator on domain `(10, 20)` and range
`(100, 200)` evaluates to the mean of the range at the domain midpoint. -/
theorem linear_eval_formula_witness :
    (10:ℝ) < 20 ∧
    Interp.eval (Interp.linear (ClosedInterval.new (10, 20))
        (ClosedInterval.new (100, 200))
        ((ClosedInterval.new ((100:ℝ), 200)).length
          / (ClosedInterval.new ((10:ℝ), 20)).length)) ((10 + 20) / 2)
      = some ((100 + 200) / 2) :=
  ⟨by norm_num,
   (linear_eval_formula 10 20 100 200 15 (by norm_num) _ rfl).2.2.2⟩

/-- Witness for C7: the sigmoid interpolator of the library's test, domain
`(10, 18)` and range `(100, 200)`, evaluates at the domain midpoint `14`
exactly to `100 + (200 - 100) / 2 = 150`. -/
theorem sigmoid_eval_formula_witness :
    (10:ℝ) < 18 ∧
    Interp.eval (Interp.sigmoid (ClosedInterval.new (10, 18))
        (ClosedInterval.new (100, 200))) ((10 + 18) / 2)
      = some (100 + (200 - 100) / 2) := by
  have hok : SigmoidInterpolator.new (10, 18) (100, 200)
      = .ok (Interp.sigmoid (ClosedInterval.new (10, 18))
          (ClosedInterval.new (100, 200))) := by
    rw [SigmoidInterpolator.new, if_pos (checkBoundOk_new (by norm_num))]
  exact ⟨by norm_num,
    (sigmoid_eval_formula 10 18 100 200 14 (by norm_num) _ hok).2.2.2⟩

/-- Witness for C8: the nearest-neighbor interpolator on domain `(10, 20)`
and range `(100, 200)` evaluates to `100` at its midpoint `15`. -/
theorem nearestNeighbor_midpoint_eval_witness :
    (10:ℝ) < 20 ∧
    Interp.eval (Interp.nearestNeighbor (ClosedInterval.new (10, 20))
        (ClosedInterval.new (100, 200))
        (((ClosedInterval.new ((10:ℝ), 20)).bound.2
            - (ClosedInterval.new ((10:ℝ), 20)).bound.1) / 2
          + (ClosedInterval.new ((10:ℝ), 20)).bound.1))
      (10 + (20 - 10) / 2) = some 100 := by
  have hok : NearestNeighborInterpolator.new (10, 20) (100, 200)
      = .ok (Interp.nearestNeighbor (ClosedInterval.new (10, 20))
          (ClosedInterval.new (100, 200))
          (((ClosedInterval.new ((10:ℝ), 20)).bound.2
              - (ClosedInterval.new ((10:ℝ), 20)).bound.1) / 2
            + (ClosedInterval.new ((10:ℝ), 20)).bound.1)) := by
    rw [NearestNeighborInterpolator.new,
      if_pos (checkBoundOk_new (by norm_num))]
  exact ⟨by norm_num,
    (nearestNeighbor_midpoint_eval 10 20 100 200 15 (by norm_num)
      _ hok).2.2.2⟩

/-- Witness for C10: the step interpolator on domain `(0, 1)` and range
`(5, 7)` evaluated at `2` gives `7`, which lies within the range
endpoints. -/
theorem leaf_eval_within_range_witness :
    (0:ℝ) < 1 ∧
    Interp.eval (Interp.step (ClosedInterval.new (0, 1))
      (ClosedInterval.new (5, 7))) 2 = some 7 ∧
    min (5:ℝ) 7 ≤ 7 ∧ (7:ℝ) ≤ max 5 7 := by
  have hok : StepInterpolator.new (0, 1) (5, 7)
      = .ok (Interp.step (ClosedInterval.new (0, 1))
          (ClosedInterval.new (5, 7))) := by
    rw [StepInterpolator.new, if_pos (checkBoundOk_new (by norm_num))]
  have hy : Interp.eval (Interp.step (ClosedInterval.new (0, 1))
      (ClosedInterval.new (5, 7))) 2 = some 7 := by
    rw [eval_step,
      if_neg (show ¬((2:ℝ) ≤ (ClosedInterval.new ((0:ℝ), 1)).bound.1) from by
        simp only [ClosedInterval.bound_new]; norm_num)]
    rfl
  have h := leaf_eval_within_range 0 1 5 7 2 7 (by norm_num) _ (Or.inl hok) hy
  exact ⟨by norm_num, hy, h.1, h.2⟩

end Claims

end

end Interpolation
